import Mathlib

/-!
Shallow embedding of `sudoku_constexpr.cpp`, a compile-time generic Sudoku
solver.  The C++ class `GenSudoku<T, N>` stores a flat `std::array<T, N*N>`
of cells (`0` marks an empty cell); its member functions are translated here
into pure Lean functions over a `GenSudoku N` structure whose cells are
natural numbers.  C++ `for` loops become folds over the explicit index list
`countUp a k`; the recursive member `solve` becomes a fuel-indexed function
`solveFuel` (the fuel only bounds the recursion depth, and `N*N + 1` is
proved sufficient), with `solve b = solveFuel N (N*N + 1) b`.
-/

/-- The ascending list `[a, a+1, ..., a+k-1]`: the successive values of the
index variable of a C++ `for` loop that starts at `a` and runs `k` times. -/
def countUp (a k : ℕ) : List ℕ :=
  match k with
  | 0 => []
  | k' + 1 => a :: countUp (a + 1) k'

/-- Loop body of `math::isqrt`: the first argument is `n`, the second the
remaining number of iterations (so the guard `t < n` of the C++ loop holds
exactly while the fuel is positive), the third the loop variable `t`.
Returns the first `t` with `t*t == n`, and `0` once the loop is exhausted. -/
def isqrtGo (n : ℕ) : ℕ → ℕ → ℕ
  | 0, _ => 0
  | k + 1, t => if t * t = n then t else isqrtGo n k (t + 1)

/-- The function `math::isqrt` from the source: scan `t = 0, 1, ...` while
`t < n`; return `t` as soon as `t*t == n`, otherwise return `0`. -/
def isqrt (n : ℕ) : ℕ := isqrtGo n n 0

/-- The class `GenSudoku<T, N>`: its single data member `boardState` is a
`std::array<T, N*N>`, modelled as a list of naturals of length `N*N`. -/
structure GenSudoku (N : ℕ) where
  boardState : List ℕ
  hlen : boardState.length = N * N

instance {N : ℕ} : DecidableEq (GenSudoku N) := fun a b =>
  decidable_of_iff (a.boardState = b.boardState)
    ⟨fun h => by cases a; cases b; simp only at h; subst h; rfl,
      fun h => by rw [h]⟩

/-- Member `GenSudoku::get(x, y)`: returns `0` when the linear index
`x*N + y` falls outside the grid, else the stored cell. -/
def get {N : ℕ} (b : GenSudoku N) (x y : ℕ) : ℕ :=
  if N * N ≤ x * N + y then 0 else b.boardState.getD (x * N + y) 0

/-- Member `GenSudoku::put(x, y, val)` computes the board whose cell at
linear index `x*N + y` is overwritten with `val`; this is both the value
the C++ function returns and the state it leaves its receiver in. -/
def put {N : ℕ} (b : GenSudoku N) (x y v : ℕ) : GenSudoku N :=
  ⟨b.boardState.set (x * N + y) v, by rw [List.length_set]; exact b.hlen⟩

/-- One complete call of the C++ member `put` on a receiver `b`: the first
component is the function's return value (`return *this` after the
assignment), the second component is the state of the receiver after the
call (the assignment `boardState[x * N + y] = val` writes through `this`,
so the receiver ends in the updated state as well). -/
def putCall {N : ℕ} (b : GenSudoku N) (x y v : ℕ) :
    GenSudoku N × GenSudoku N :=
  (put b x y v, put b x y v)

/-- Total embedding of the raw array write `boardState[i] = v` performed by
`put`: the C++ subscript has no bounds check, so an index outside the array
is undefined behaviour, modelled by the `none` branch. -/
def writeCell (l : List ℕ) (i v : ℕ) : Option (List ℕ) :=
  if i < l.length then some (l.set i v) else none

/-- Presence-table loop of `GenSudoku::sectionValid`: walk the section,
skip zeroes, reject a value already marked, else mark it.  The table
`positions` has `N+1` entries, indexed by cell values. -/
def sectionValidAux : List ℕ → List Bool → Bool
  | [], _ => true
  | i :: rest, positions =>
    if i = 0 then sectionValidAux rest positions
    else if positions.getD i false then false
    else sectionValidAux rest (positions.set i true)

/-- Member `GenSudoku::sectionValid`: a section is valid when no non-zero
value occurs in it twice, decided with a fresh presence table of `N+1`
`false` entries. -/
def sectionValid (N : ℕ) (bs : List ℕ) : Bool :=
  sectionValidAux bs (List.replicate (N + 1) false)

/-- Read the cells of a board at a list of linear indices (out-of-range
reads yield `0`, as in the source's `get`). -/
def cellsAt {N : ℕ} (b : GenSudoku N) (ps : List ℕ) : List ℕ :=
  ps.map (fun p => b.boardState.getD p 0)

/-- Linear indices read by `GenSudoku::row(x)`, in loop order. -/
def rowIdx (N x : ℕ) : List ℕ :=
  (countUp 0 N).map (fun y => x * N + y)

/-- Linear indices read by `GenSudoku::col(y)`, in loop order. -/
def colIdx (N y : ℕ) : List ℕ :=
  (countUp 0 N).map (fun x => x * N + y)

/-- Inner double loop of `GenSudoku::quadrant`: for each `i` of the outer
loop list, the indices `base + (i*N + j)` for `j = 0, ..., s-1`. -/
def quadIdxRows (N s base : ℕ) : List ℕ → List ℕ
  | [] => []
  | i :: is => ((countUp 0 s).map (fun j => base + (i * N + j))) ++
      quadIdxRows N s base is

/-- Linear indices read by `GenSudoku::quadrant(x, y)`, in the order the
loop writes them into the section array. -/
def quadIdx (N x y : ℕ) : List ℕ :=
  quadIdxRows N (isqrt N) (isqrt N * (x * N + y)) (countUp 0 (isqrt N))

/-- Member `GenSudoku::row(x)`. -/
def row {N : ℕ} (b : GenSudoku N) (x : ℕ) : List ℕ :=
  cellsAt b (rowIdx N x)

/-- Member `GenSudoku::col(y)`. -/
def col {N : ℕ} (b : GenSudoku N) (y : ℕ) : List ℕ :=
  cellsAt b (colIdx N y)

/-- Member `GenSudoku::quadrant(x, y)`: the section array starts as `N`
zeroes and the double loop overwrites its first `side()*side()` entries in
row-major order, so the remaining `N - side()*side()` entries stay `0`. -/
def quadrant {N : ℕ} (b : GenSudoku N) (x y : ℕ) : List ℕ :=
  cellsAt b (quadIdx N x y) ++ List.replicate (N - isqrt N * isqrt N) 0

/-- Member `GenSudoku::rowValid(x)`. -/
def rowValid {N : ℕ} (b : GenSudoku N) (x : ℕ) : Bool :=
  sectionValid N (row b x)

/-- Member `GenSudoku::colValid(y)`. -/
def colValid {N : ℕ} (b : GenSudoku N) (y : ℕ) : Bool :=
  sectionValid N (col b y)

/-- Member `GenSudoku::quadrantValid(x, y)`. -/
def quadrantValid {N : ℕ} (b : GenSudoku N) (x y : ℕ) : Bool :=
  sectionValid N (quadrant b x y)

/-- Member `GenSudoku::isValid`: all `N` rows, all `N` columns and all
`side() * side()` quadrants are valid. -/
def isValid {N : ℕ} (b : GenSudoku N) : Bool :=
  ((countUp 0 N).all (fun x => rowValid b x)) &&
  ((countUp 0 N).all (fun y => colValid b y)) &&
  ((countUp 0 (isqrt N)).all (fun x =>
    (countUp 0 (isqrt N)).all (fun y => quadrantValid b x y)))

/-- Member `GenSudoku::isComplete`: no cell reads `0`. -/
def isComplete {N : ℕ} (b : GenSudoku N) : Bool :=
  (countUp 0 N).all (fun x =>
    (countUp 0 N).all (fun y => decide (get b x y ≠ 0)))

/-- Member `GenSudoku::isSolved`. -/
def isSolved {N : ℕ} (b : GenSudoku N) : Bool :=
  isValid b && isComplete b

/-- Inner loop of `GenSudoku::next` over the column indices of row `x`. -/
def nextRow {N : ℕ} (b : GenSudoku N) (x : ℕ) : List ℕ → Option (ℕ × ℕ)
  | [] => none
  | y :: ys => if get b x y = 0 then some (x, y) else nextRow b x ys

/-- Outer loop of `GenSudoku::next` over the row indices. -/
def nextOuter {N : ℕ} (b : GenSudoku N) : List ℕ → Option (ℕ × ℕ)
  | [] => none
  | x :: xs =>
    match nextRow b x (countUp 0 N) with
    | some c => some c
    | none => nextOuter b xs

/-- Member `GenSudoku::next`: the first cell in row-major order holding
`0`; the C++ sentinel pair of `size_t` maxima is modelled by `none`. -/
def next {N : ℕ} (b : GenSudoku N) : Option (ℕ × ℕ) :=
  nextOuter b (countUp 0 N)

/-- Candidate digits tried by the loop `for (unsigned i = 1; i <= N; ++i)`
in `GenSudoku::solve`. -/
def candList (N : ℕ) : List ℕ := countUp 1 N

/-- Candidate loop of `GenSudoku::solve`: for each candidate `i` in order,
compute `res = GenSudoku(*this).put(x, y, i).solve()` (abstracted as
`f i`) and return the first `res` passing
`res.isComplete() && res.isValid()`; `none` when the loop falls through. -/
def trySolved {N : ℕ} (f : ℕ → GenSudoku N) : List ℕ → Option (GenSudoku N)
  | [] => none
  | i :: rest =>
    if isComplete (f i) && isValid (f i) then some (f i)
    else trySolved f rest

/-- Member `GenSudoku::solve`, with an explicit bound `fuel` on the
recursion depth (the C++ recursion needs none; `solveFuel_fuel_high` below
proves any fuel above the number of empty cells gives the same result,
so the bound is never the deciding factor in `solve` below). -/
def solveFuel (N : ℕ) : ℕ → GenSudoku N → GenSudoku N
  | 0, b => b
  | fuel + 1, b =>
    if isValid b then
      match next b with
      | none => b
      | some (x, y) =>
        match trySolved (fun i => solveFuel N fuel (put b x y i))
            (candList N) with
        | some res => res
        | none => b
    else b

/-- Number of empty cells of a board; the measure that strictly decreases
along the recursion of `GenSudoku::solve`. -/
def countZeros {N : ℕ} (b : GenSudoku N) : ℕ := b.boardState.count 0

/-- Member `GenSudoku::solve`: the recursion depth is at most one more
than the number of empty cells, so fuel `N*N + 1` always suffices. -/
def solve {N : ℕ} (b : GenSudoku N) : GenSudoku N :=
  solveFuel N (N * N + 1) b

/-- The result board agrees with `B` on every non-zero (clue) cell of
`B`. -/
def Extends {N : ℕ} (S B : GenSudoku N) : Prop :=
  ∀ p, p < N * N → B.boardState.getD p 0 ≠ 0 →
    S.boardState.getD p 0 = B.boardState.getD p 0

/-- All cells of the board lie in the closed range `[0, N]` (the data-model
invariant of the spec). -/
def InRange (N : ℕ) (b : GenSudoku N) : Prop :=
  ∀ v ∈ b.boardState, v ≤ N

/-- Lexicographic comparison (`≤`) of flattened boards, used to express
that the backtracking order yields the least reachable solution. -/
def lexLe : List ℕ → List ℕ → Bool
  | [], [] => true
  | [], _ :: _ => true
  | _ :: _, [] => false
  | a :: as, b :: bs =>
    if a < b then true else if a = b then lexLe as bs else false

/-- A solution of puzzle `B`: a board that is valid, complete, has all
cells in `[0, N]` (hence in `[1, N]`, being complete), and agrees with
every non-zero clue of `B`. -/
def IsSolutionOf {N : ℕ} (S B : GenSudoku N) : Prop :=
  isValid S = true ∧ isComplete S = true ∧ InRange N S ∧ Extends S B

instance {N : ℕ} (S B : GenSudoku N) : Decidable (Extends S B) := by
  unfold Extends
  infer_instance

instance {N : ℕ} (b : GenSudoku N) : Decidable (InRange N b) := by
  unfold InRange
  infer_instance

instance {N : ℕ} (S B : GenSudoku N) : Decidable (IsSolutionOf S B) := by
  unfold IsSolutionOf
  infer_instance

/-- Sample `4 × 4` puzzle with exactly one empty cell, used to instantiate
the theorems about `solve` on concrete data. -/
def sampleBoard : GenSudoku 4 :=
  ⟨[1, 2, 3, 4, 3, 4, 1, 2, 2, 1, 4, 3, 4, 3, 2, 0], by decide⟩

/-- The completed form of `sampleBoard`; a solved `4 × 4` board. -/
def sampleSolved : GenSudoku 4 :=
  ⟨[1, 2, 3, 4, 3, 4, 1, 2, 2, 1, 4, 3, 4, 3, 2, 1], by decide⟩

/-- A `4 × 4` board with two `1`s in its first row, hence invalid. -/
def sampleInvalid : GenSudoku 4 :=
  ⟨[1, 1, 0, 0, 0, 0, 0, 0, 0, 0, 0, 0, 0, 0, 0, 0], by decide⟩

/-- A tiny `2 × 2` board (the dimension need not be a perfect square for
the raw accessors) used to exercise `get` and the raw write. -/
def sampleSmall : GenSudoku 2 := ⟨[5, 6, 7, 8], by decide⟩

/-- A `1 × 1` board holding a single empty cell, used to observe that the
C++ `put` mutates its receiver. -/
def sampleOne : GenSudoku 1 := ⟨[0], by decide⟩

/-! ### Basic lemmas about the loop index lists and list primitives -/

theorem mem_countUp {x a k : ℕ} : x ∈ countUp a k ↔ a ≤ x ∧ x < a + k := by
  induction k generalizing a with
  | zero => simp [countUp]
  | succ k ih =>
    simp only [countUp, List.mem_cons, ih]
    omega

theorem length_countUp (a k : ℕ) : (countUp a k).length = k := by
  induction k generalizing a with
  | zero => rfl
  | succ k ih => simp [countUp, ih]

theorem all_countUp {f : ℕ → Bool} {a k : ℕ} :
    (countUp a k).all f = true ↔ ∀ x, a ≤ x → x < a + k → f x = true := by
  rw [List.all_eq_true]
  constructor
  · intro h x h1 h2
    exact h x (mem_countUp.mpr ⟨h1, h2⟩)
  · intro h x hx
    obtain ⟨h1, h2⟩ := mem_countUp.mp hx
    exact h x h1 h2

theorem getD_set_eq {α : Type} {l : List α} {i : ℕ} {v d : α}
    (h : i < l.length) : (l.set i v).getD i d = v := by
  rw [List.getD_eq_getElem?_getD, List.getElem?_set_self h]
  rfl

theorem getD_set_ne {α : Type} {l : List α} {i j : ℕ} {v d : α}
    (h : i ≠ j) : (l.set i v).getD j d = l.getD j d := by
  rw [List.getD_eq_getElem?_getD, List.getElem?_set_ne h,
    ← List.getD_eq_getElem?_getD]

theorem getD_mem_or_eq {l : List ℕ} {p : ℕ} :
    l.getD p 0 ∈ l ∨ l.getD p 0 = 0 := by
  rw [List.getD_eq_getElem?_getD]
  rcases lt_or_ge p l.length with h | h
  · rw [List.getElem?_eq_getElem h]
    exact Or.inl (List.getElem_mem h)
  · rw [List.getElem?_eq_none h]
    exact Or.inr rfl

theorem getD_of_ge {α : Type} {l : List α} {p : ℕ} {d : α}
    (h : l.length ≤ p) : l.getD p d = d := by
  rw [List.getD_eq_getElem?_getD, List.getElem?_eq_none h]
  rfl

theorem ext_getD {l₁ l₂ : List ℕ} (hl : l₁.length = l₂.length)
    (h : ∀ p, p < l₁.length → l₁.getD p 0 = l₂.getD p 0) : l₁ = l₂ := by
  apply List.ext_getElem hl
  intro n h₁ h₂
  have hn := h n h₁
  rw [List.getD_eq_getElem?_getD, List.getD_eq_getElem?_getD,
    List.getElem?_eq_getElem h₁, List.getElem?_eq_getElem h₂] at hn
  exact hn

theorem count_zero_set_lt {l : List ℕ} {p v : ℕ} (hp : p < l.length)
    (h0 : l.getD p 0 = 0) (hv : v ≠ 0) :
    (l.set p v).count 0 < l.count 0 := by
  have hget : l[p] = 0 := by
    rw [List.getD_eq_getElem?_getD, List.getElem?_eq_getElem hp] at h0
    exact h0
  have hpos : 0 < l.count 0 := by
    rw [List.count_pos_iff]
    exact hget ▸ List.getElem_mem hp
  have hv' : (v == 0) = false := by simp [hv]
  rw [List.count_set v 0 l p hp, hget, hv']
  simp only [beq_self_eq_true, if_true, Bool.false_eq_true, if_false]
  omega

/-! ### Characterization of `isqrt` -/

theorem isqrtGo_eq_of_found (n : ℕ) :
    ∀ k t s, t ≤ s → s < t + k → s * s = n → isqrtGo n k t = s := by
  intro k
  induction k with
  | zero => intro t s h1 h2 h3; omega
  | succ k ih =>
    intro t s h1 h2 h3
    by_cases ht : t * t = n
    · have hts : t = s := by
        rcases Nat.lt_or_ge t s with h | h
        · have : t * t < s * s :=
            Nat.mul_lt_mul_of_lt_of_le h (Nat.le_of_lt h) (by omega)
          omega
        · omega
      subst hts
      simp [isqrtGo, ht]
    · have hts : t < s := by
        rcases Nat.lt_or_ge t s with h | h
        · exact h
        · have : t = s := by omega
          exact absurd (this ▸ h3) ht
      simp only [isqrtGo, if_neg ht]
      exact ih (t + 1) s (by omega) (by omega) h3

theorem isqrtGo_eq_zero (n : ℕ) :
    ∀ k t, (∀ s, t ≤ s → s < t + k → s * s ≠ n) → isqrtGo n k t = 0 := by
  intro k
  induction k with
  | zero => intro t _; rfl
  | succ k ih =>
    intro t h
    have ht : t * t ≠ n := h t (Nat.le_refl t) (by omega)
    simp only [isqrtGo, if_neg ht]
    exact ih (t + 1) (fun s h1 h2 => h s (by omega) (by omega))

theorem isqrt_eq_of_found {n t : ℕ} (h1 : t < n) (h2 : t * t = n) :
    isqrt n = t :=
  isqrtGo_eq_of_found n n 0 t (Nat.zero_le t) (by omega) h2

theorem isqrt_eq_zero {n : ℕ} (h : ∀ t, t < n → t * t ≠ n) : isqrt n = 0 :=
  isqrtGo_eq_zero n n 0 (fun s _ h2 => h s (by omega))

theorem isqrt_sq_or_zero (n : ℕ) :
    isqrt n = 0 ∨ isqrt n * isqrt n = n := by
  by_cases h : ∃ t, t < n ∧ t * t = n
  · obtain ⟨t, h1, h2⟩ := h
    right
    rw [isqrt_eq_of_found h1 h2]
    exact h2
  · left
    exact isqrt_eq_zero (fun t h1 h2 => h ⟨t, h1, h2⟩)

/-! ### Linear-index arithmetic for the `N × N` grid -/

theorem linear_lt {N x y : ℕ} (hx : x < N) (hy : y < N) :
    x * N + y < N * N := by
  have h1 : x * N + y < (x + 1) * N := by
    rw [Nat.succ_mul]
    omega
  have h2 : (x + 1) * N ≤ N * N :=
    Nat.mul_le_mul_right N (Nat.succ_le_of_lt hx)
  omega

theorem linear_inj {N x y x' y' : ℕ} (hy : y < N) (hy' : y' < N)
    (h : x * N + y = x' * N + y') : x = x' ∧ y = y' := by
  have hm : (x * N + y) % N = y := by
    rw [Nat.mul_comm x N, Nat.mul_add_mod]
    exact Nat.mod_eq_of_lt hy
  have hm' : (x' * N + y') % N = y' := by
    rw [Nat.mul_comm x' N, Nat.mul_add_mod]
    exact Nat.mod_eq_of_lt hy'
  have hyy : y = y' := by rw [← hm, ← hm', h]
  subst hyy
  have hN : 0 < N := by omega
  have hxx : x * N = x' * N := by omega
  exact ⟨Nat.eq_of_mul_eq_mul_right hN hxx, rfl⟩

theorem linear_decomp {N p : ℕ} (h : p < N * N) :
    p / N < N ∧ p % N < N ∧ (p / N) * N + p % N = p := by
  have hN : 0 < N := by
    rcases Nat.eq_zero_or_pos N with h0 | h0
    · subst h0; simp at h
    · exact h0
  refine ⟨?_, Nat.mod_lt p hN, ?_⟩
  · rw [Nat.div_lt_iff_lt_mul hN]
    exact h
  · rw [Nat.mul_comm (p / N) N]
    exact Nat.div_add_mod p N

/-! ### Cell access lemmas -/

theorem get_eq_getD {N : ℕ} (b : GenSudoku N) {x y : ℕ} (hx : x < N)
    (hy : y < N) : get b x y = b.boardState.getD (x * N + y) 0 := by
  show (if N * N ≤ x * N + y then 0 else b.boardState.getD (x * N + y) 0) =
    b.boardState.getD (x * N + y) 0
  rw [if_neg (Nat.not_le.mpr (linear_lt hx hy))]

theorem get_of_ge {N : ℕ} (b : GenSudoku N) {x y : ℕ}
    (h : N * N ≤ x * N + y) : get b x y = 0 := by
  show (if N * N ≤ x * N + y then 0 else b.boardState.getD (x * N + y) 0) = 0
  rw [if_pos h]

theorem put_boardState {N : ℕ} (b : GenSudoku N) (x y v : ℕ) :
    (put b x y v).boardState = b.boardState.set (x * N + y) v := rfl

theorem getD_put_eq {N : ℕ} (b : GenSudoku N) {x y : ℕ} (v : ℕ)
    (hp : x * N + y < N * N) :
    (put b x y v).boardState.getD (x * N + y) 0 = v :=
  getD_set_eq (by rw [b.hlen]; exact hp)

theorem getD_put_ne {N : ℕ} (b : GenSudoku N) {x y q : ℕ} (v : ℕ)
    (hq : x * N + y ≠ q) :
    (put b x y v).boardState.getD q 0 = b.boardState.getD q 0 :=
  getD_set_ne hq

theorem countZeros_le {N : ℕ} (b : GenSudoku N) : countZeros b ≤ N * N := by
  rw [countZeros, ← b.hlen]
  exact List.count_le_length 0 b.boardState

/-! ### Completeness characterizations -/

theorem isComplete_iff {N : ℕ} (b : GenSudoku N) :
    isComplete b = true ↔ ∀ x y, x < N → y < N → get b x y ≠ 0 := by
  rw [isComplete, all_countUp]
  constructor
  · intro h x y hx hy
    have h1 := h x (Nat.zero_le x) (by omega)
    rw [all_countUp] at h1
    exact of_decide_eq_true (h1 y (Nat.zero_le y) (by omega))
  · intro h x _ hx
    rw [all_countUp]
    intro y _ hy
    exact decide_eq_true (h x y (by omega) (by omega))

theorem isComplete_iff_getD {N : ℕ} (b : GenSudoku N) :
    isComplete b = true ↔ ∀ p, p < N * N → b.boardState.getD p 0 ≠ 0 := by
  rw [isComplete_iff]
  constructor
  · intro h p hp
    obtain ⟨h1, h2, h3⟩ := linear_decomp hp
    have h4 := h (p / N) (p % N) h1 h2
    rw [get_eq_getD b h1 h2, h3] at h4
    exact h4
  · intro h x y hx hy
    rw [get_eq_getD b hx hy]
    exact h _ (linear_lt hx hy)

/-! ### Lemmas about `next` -/

theorem nextRow_eq_some {N : ℕ} {b : GenSudoku N} {x : ℕ} :
    ∀ {a k : ℕ} {c : ℕ × ℕ}, nextRow b x (countUp a k) = some c →
      c.1 = x ∧ a ≤ c.2 ∧ c.2 < a + k ∧ get b x c.2 = 0 ∧
      ∀ y, a ≤ y → y < c.2 → get b x y ≠ 0 := by
  intro a k
  induction k generalizing a with
  | zero => intro c h; simp [countUp, nextRow] at h
  | succ k ih =>
    intro c h
    simp only [countUp, nextRow] at h
    by_cases hg : get b x a = 0
    · rw [if_pos hg] at h
      have hc : (x, a) = c := by injection h
      subst hc
      exact ⟨rfl, Nat.le_refl a, by omega, hg, fun y h1 h2 => by omega⟩
    · rw [if_neg hg] at h
      obtain ⟨h1, h2, h3, h4, h5⟩ := ih h
      refine ⟨h1, by omega, by omega, h4, ?_⟩
      intro y hy1 hy2
      rcases Nat.eq_or_lt_of_le hy1 with he | hl
      · exact he ▸ hg
      · exact h5 y hl hy2

theorem nextRow_none_iff {N : ℕ} {b : GenSudoku N} {x : ℕ} :
    ∀ {a k : ℕ}, nextRow b x (countUp a k) = none ↔
      ∀ y, a ≤ y → y < a + k → get b x y ≠ 0 := by
  intro a k
  induction k generalizing a with
  | zero => simp [countUp, nextRow]; omega
  | succ k ih =>
    simp only [countUp, nextRow]
    by_cases hg : get b x a = 0
    · rw [if_pos hg]
      constructor
      · intro h
        exact absurd h (by simp)
      · intro h
        exact absurd hg (h a (Nat.le_refl a) (by omega))
    · rw [if_neg hg, ih]
      constructor
      · intro h y h1 h2
        rcases Nat.eq_or_lt_of_le h1 with he | hl
        · exact he ▸ hg
        · exact h y hl (by omega)
      · intro h y h1 h2
        exact h y (by omega) (by omega)

theorem nextOuter_eq_some {N : ℕ} {b : GenSudoku N} :
    ∀ {a k : ℕ} {c : ℕ × ℕ}, nextOuter b (countUp a k) = some c →
      a ≤ c.1 ∧ c.1 < a + k ∧ c.2 < N ∧ get b c.1 c.2 = 0 ∧
      (∀ x y, a ≤ x → x < c.1 → y < N → get b x y ≠ 0) ∧
      (∀ y, y < c.2 → get b c.1 y ≠ 0) := by
  intro a k
  induction k generalizing a with
  | zero => intro c h; simp [countUp, nextOuter] at h
  | succ k ih =>
    intro c h
    simp only [countUp, nextOuter] at h
    rcases hr : nextRow b a (countUp 0 N) with _ | c0
    · rw [hr] at h
      obtain ⟨h1, h2, h3, h4, h5, h6⟩ := ih h
      have hrow : ∀ y, y < N → get b a y ≠ 0 := by
        intro y hy
        exact (nextRow_none_iff.mp hr) y (Nat.zero_le y) (by omega)
      refine ⟨by omega, by omega, h3, h4, ?_, h6⟩
      intro x y hx1 hx2 hy
      rcases Nat.eq_or_lt_of_le hx1 with he | hl
      · exact he ▸ hrow y hy
      · exact h5 x y hl hx2 hy
    · rw [hr] at h
      have hc : c0 = c := by injection h
      subst hc
      obtain ⟨h1, h2, h3, h4, h5⟩ := nextRow_eq_some hr
      refine ⟨by omega, by omega, by omega, ?_, ?_, ?_⟩
      · rw [h1]; exact h4
      · intro x y hx1 hx2 hy
        omega
      · intro y hy
        rw [h1]
        exact h5 y (Nat.zero_le y) hy

theorem next_some_spec {N : ℕ} {b : GenSudoku N} {x y : ℕ}
    (h : next b = some (x, y)) :
    x < N ∧ y < N ∧ get b x y = 0 ∧
    ∀ x' y', x' < N → y' < N → x' * N + y' < x * N + y →
      get b x' y' ≠ 0 := by
  obtain ⟨_, h2, h3, h4, h5, h6⟩ := nextOuter_eq_some h
  refine ⟨by omega, h3, h4, ?_⟩
  intro x' y' hx' hy' hlt
  rcases Nat.lt_trichotomy x' x with hc | hc | hc
  · exact h5 x' y' (Nat.zero_le x') hc hy'
  · subst hc
    have hyy : y' < y := by omega
    exact h6 y' hyy
  · exfalso
    have ha : (x + 1) * N ≤ x' * N :=
      Nat.mul_le_mul_right N (Nat.succ_le_of_lt hc)
    have hb : x * N + y < (x + 1) * N := by
      rw [Nat.succ_mul]
      omega
    omega

theorem nextOuter_none_iff {N : ℕ} {b : GenSudoku N} :
    ∀ {a k : ℕ}, nextOuter b (countUp a k) = none ↔
      ∀ x, a ≤ x → x < a + k → ∀ y, y < N → get b x y ≠ 0 := by
  intro a k
  induction k generalizing a with
  | zero =>
    simp only [countUp, nextOuter]
    constructor
    · intro _ x h1 h2
      omega
    · intro _
      trivial
  | succ k ih =>
    simp only [countUp, nextOuter]
    rcases hr : nextRow b a (countUp 0 N) with _ | c0
    · rw [ih]
      constructor
      · intro h x h1 h2 y hy
        rcases Nat.eq_or_lt_of_le h1 with he | hl
        · exact he ▸ (nextRow_none_iff.mp hr) y (Nat.zero_le y) (by omega)
        · exact h x hl (by omega) y hy
      · intro h x h1 h2 y hy
        exact h x (by omega) (by omega) y hy
    · constructor
      · intro h
        exact absurd h (by simp)
      · intro h
        exfalso
        obtain ⟨h1, h2, h3, h4, h5⟩ := nextRow_eq_some hr
        exact h a (Nat.le_refl a) (by omega) c0.2 (by omega) h4

theorem next_none_iff {N : ℕ} {b : GenSudoku N} :
    next b = none ↔ isComplete b = true := by
  rw [next, nextOuter_none_iff, isComplete_iff]
  constructor
  · intro h x y hx hy
    exact h x (Nat.zero_le x) (by omega) y hy
  · intro h x _ hx y hy
    exact h x y (by omega) hy

/-! ### Characterization of `sectionValid` -/

theorem getD_replicate_false {n v : ℕ} :
    (List.replicate n false).getD v false = false := by
  rcases lt_or_ge v n with h | h
  · rw [List.getD_eq_getElem?_getD,
      List.getElem?_eq_getElem (by simpa using h)]
    simp
  · exact getD_of_ge (by simpa using h)

theorem count_cons_ne {i v : ℕ} (rest : List ℕ) (h : i ≠ v) :
    (i :: rest).count v = rest.count v := by
  rw [List.count_cons]
  simp [h]

theorem sectionValidAux_spec {N : ℕ} :
    ∀ (bs : List ℕ) (positions : List Bool),
      positions.length = N + 1 → (∀ v ∈ bs, v ≤ N) →
      (sectionValidAux bs positions = true ↔
        ((∀ v ∈ bs, v ≠ 0 → positions.getD v false = false) ∧
         ∀ v, v ≠ 0 → bs.count v ≤ 1)) := by
  intro bs
  induction bs with
  | nil =>
    intro positions hp hr
    simp [sectionValidAux]
  | cons i rest ih =>
    intro positions hp hr
    have hri : i ≤ N := hr i (List.mem_cons_self i rest)
    have hrr : ∀ v ∈ rest, v ≤ N :=
      fun v hv => hr v (List.mem_cons_of_mem i hv)
    by_cases hi : i = 0
    · subst hi
      have hstep : sectionValidAux (0 :: rest) positions =
          sectionValidAux rest positions := by
        simp [sectionValidAux]
      rw [hstep, ih positions hp hrr]
      constructor
      · rintro ⟨h1, h2⟩
        refine ⟨?_, ?_⟩
        · intro v hv hv0
          rcases List.mem_cons.mp hv with he | hm
          · exact absurd he hv0
          · exact h1 v hm hv0
        · intro v hv0
          rw [count_cons_ne rest (Ne.symm hv0)]
          exact h2 v hv0
      · rintro ⟨h1, h2⟩
        refine ⟨?_, ?_⟩
        · intro v hv hv0
          exact h1 v (List.mem_cons_of_mem 0 hv) hv0
        · intro v hv0
          have := h2 v hv0
          rw [count_cons_ne rest (Ne.symm hv0)] at this
          exact this
    · have hilen : i < positions.length := by omega
      simp only [sectionValidAux, if_neg hi]
      by_cases hgi : positions.getD i false = true
      · rw [if_pos hgi]
        constructor
        · intro h
          exact absurd h (by simp)
        · rintro ⟨h1, _⟩
          have hfalse := h1 i (List.mem_cons_self i rest) hi
          rw [hfalse] at hgi
          exact absurd hgi (by simp)
      · have hgi' : positions.getD i false = false := by
          cases hq : positions.getD i false
          · rfl
          · exact absurd hq hgi
        rw [if_neg hgi]
        rw [ih (positions.set i true)
          (by rw [List.length_set]; exact hp) hrr]
        have hset_i : (positions.set i true).getD i false = true :=
          getD_set_eq hilen
        constructor
        · rintro ⟨h1, h2⟩
          have hnotmem : i ∉ rest := by
            intro hmem
            have := h1 i hmem hi
            rw [hset_i] at this
            exact absurd this (by simp)
          refine ⟨?_, ?_⟩
          · intro v hv hv0
            rcases List.mem_cons.mp hv with he | hm
            · exact he ▸ hgi'
            · by_cases hvi : v = i
              · exact absurd (hvi ▸ hm) hnotmem
              · have := h1 v hm hv0
                rw [getD_set_ne (fun he => hvi he.symm)] at this
                exact this
          · intro v hv0
            by_cases hvi : v = i
            · subst hvi
              rw [List.count_cons_self]
              have : rest.count v = 0 := List.count_eq_zero.mpr hnotmem
              omega
            · rw [count_cons_ne rest (fun he => hvi he.symm)]
              exact h2 v hv0
        · rintro ⟨h1, h2⟩
          have hnotmem : i ∉ rest := by
            intro hmem
            have hcnt := h2 i hi
            rw [List.count_cons_self] at hcnt
            have : 0 < rest.count i := List.count_pos_iff.mpr hmem
            omega
          refine ⟨?_, ?_⟩
          · intro v hv hv0
            have hvi : v ≠ i := fun he => hnotmem (he ▸ hv)
            rw [getD_set_ne (fun he => hvi he.symm)]
            exact h1 v (List.mem_cons_of_mem i hv) hv0
          · intro v hv0
            have := h2 v hv0
            rw [List.count_cons] at this
            omega

theorem sectionValid_eq_true_iff {N : ℕ} {bs : List ℕ}
    (hr : ∀ v ∈ bs, v ≤ N) :
    sectionValid N bs = true ↔ ∀ v, v ≠ 0 → bs.count v ≤ 1 := by
  rw [sectionValid,
    sectionValidAux_spec bs _ (List.length_replicate _ _) hr]
  constructor
  · exact fun h => h.2
  · intro h
    exact ⟨fun v _ _ => getD_replicate_false, h⟩

/-! ### Monotonicity of section validity under filling empty cells -/

theorem count_le_of_rel {bs ts : List ℕ}
    (h : List.Forall₂ (fun a c => a = 0 ∨ a = c) bs ts) :
    ∀ v, v ≠ 0 → bs.count v ≤ ts.count v := by
  induction h with
  | nil =>
    intro v _
    simp
  | cons h1 h2 ih =>
    intro v hv
    rw [List.count_cons, List.count_cons]
    rcases h1 with h0 | heq
    · subst h0
      have hz : ((0 : ℕ) == v) = false := by
        simp [Ne.symm hv]
      rw [hz]
      have := ih v hv
      cases hc : (_ == v) <;> simp <;> omega
    · subst heq
      have := ih v hv
      omega

theorem sectionValid_mono {N : ℕ} {bs ts : List ℕ}
    (hrel : List.Forall₂ (fun a c => a = 0 ∨ a = c) bs ts)
    (hbs : ∀ v ∈ bs, v ≤ N) (hts : ∀ v ∈ ts, v ≤ N)
    (hv : sectionValid N ts = true) : sectionValid N bs = true := by
  rw [sectionValid_eq_true_iff hbs]
  rw [sectionValid_eq_true_iff hts] at hv
  intro v h0
  exact Nat.le_trans (count_le_of_rel hrel v h0) (hv v h0)

/-! ### Board predicates: extension, cell range -/

theorem Extends.refl {N : ℕ} (b : GenSudoku N) : Extends b b :=
  fun _ _ _ => rfl

theorem Extends.trans {N : ℕ} {a b c : GenSudoku N}
    (h1 : Extends a b) (h2 : Extends b c) : Extends a c := by
  intro p hp h0
  have hb : b.boardState.getD p 0 = c.boardState.getD p 0 := h2 p hp h0
  have hb0 : b.boardState.getD p 0 ≠ 0 := by
    rw [hb]
    exact h0
  rw [h1 p hp hb0, hb]

theorem cellsAt_rel {N : ℕ} {B S : GenSudoku N} (h : Extends S B)
    {ps : List ℕ} (hps : ∀ p ∈ ps, p < N * N) :
    List.Forall₂ (fun a c => a = 0 ∨ a = c) (cellsAt B ps) (cellsAt S ps) := by
  induction ps with
  | nil => exact List.Forall₂.nil
  | cons p ps ih =>
    refine List.Forall₂.cons ?_
      (ih (fun q hq => hps q (List.mem_cons_of_mem p hq)))
    by_cases h0 : B.boardState.getD p 0 = 0
    · exact Or.inl h0
    · exact Or.inr (h p (hps p (List.mem_cons_self p ps)) h0).symm

theorem cellsAt_le {N : ℕ} {b : GenSudoku N} (h : InRange N b)
    (ps : List ℕ) : ∀ v ∈ cellsAt b ps, v ≤ N := by
  intro v hv
  simp only [cellsAt, List.mem_map] at hv
  obtain ⟨p, _, hpe⟩ := hv
  rcases getD_mem_or_eq (l := b.boardState) (p := p) with hm | h0
  · exact hpe ▸ h _ hm
  · rw [← hpe, h0]
    exact Nat.zero_le N

theorem quadrant_le {N : ℕ} {b : GenSudoku N} (h : InRange N b)
    (x y : ℕ) : ∀ v ∈ quadrant b x y, v ≤ N := by
  intro v hv
  rcases List.mem_append.mp hv with hm | hm
  · exact cellsAt_le h _ v hm
  · rw [(List.mem_replicate.mp hm).2]
    exact Nat.zero_le N

/-! ### Index-range bounds for the three section kinds -/

theorem mem_rowIdx_lt {N x : ℕ} (hx : x < N) :
    ∀ p ∈ rowIdx N x, p < N * N := by
  intro p hp
  simp only [rowIdx, List.mem_map] at hp
  obtain ⟨y, hy, hpe⟩ := hp
  have := mem_countUp.mp hy
  exact hpe ▸ linear_lt hx (by omega)

theorem mem_colIdx_lt {N y : ℕ} (hy : y < N) :
    ∀ p ∈ colIdx N y, p < N * N := by
  intro p hp
  simp only [colIdx, List.mem_map] at hp
  obtain ⟨x, hx, hpe⟩ := hp
  have := mem_countUp.mp hx
  exact hpe ▸ linear_lt (by omega) hy

theorem mem_quadIdxRows {N s base : ℕ} :
    ∀ {l : List ℕ} {p : ℕ}, p ∈ quadIdxRows N s base l →
      ∃ i ∈ l, ∃ j, j < s ∧ p = base + (i * N + j) := by
  intro l
  induction l with
  | nil =>
    intro p h
    simp [quadIdxRows] at h
  | cons i is ih =>
    intro p h
    simp only [quadIdxRows, List.mem_append, List.mem_map] at h
    rcases h with h | h
    · obtain ⟨j, hj, hpe⟩ := h
      have := mem_countUp.mp hj
      exact ⟨i, List.mem_cons_self i is, j, by omega, hpe.symm⟩
    · obtain ⟨i', hi', j, hj, hpe⟩ := ih h
      exact ⟨i', List.mem_cons_of_mem i hi', j, hj, hpe⟩

theorem mem_quadIdx_lt {N x y : ℕ} (hsq : isqrt N * isqrt N = N)
    (hx : x < isqrt N) (hy : y < isqrt N) :
    ∀ p ∈ quadIdx N x y, p < N * N := by
  intro p hp
  obtain ⟨i, hi, j, hj, hpe⟩ := mem_quadIdxRows hp
  have hi' : i < isqrt N := by
    have := mem_countUp.mp hi
    omega
  set s := isqrt N with hs
  have h1 : s * x + s ≤ N := by
    calc s * x + s = s * (x + 1) := by ring
    _ ≤ s * s := Nat.mul_le_mul_left s (Nat.succ_le_of_lt hx)
    _ = N := hsq
  have h2 : s * y + s ≤ N := by
    calc s * y + s = s * (y + 1) := by ring
    _ ≤ s * s := Nat.mul_le_mul_left s (Nat.succ_le_of_lt hy)
    _ = N := hsq
  have hrow : s * x + i < N := by omega
  have hcol : s * y + j < N := by omega
  have hdecomp : s * (x * N + y) + (i * N + j) =
      (s * x + i) * N + (s * y + j) := by ring
  rw [hpe, hdecomp]
  exact linear_lt hrow hcol

/-! ### Characterization of `isValid` -/

theorem isValid_iff {N : ℕ} (b : GenSudoku N) :
    isValid b = true ↔
      (∀ x, x < N → rowValid b x = true) ∧
      (∀ y, y < N → colValid b y = true) ∧
      (∀ x y, x < isqrt N → y < isqrt N →
        quadrantValid b x y = true) := by
  rw [isValid]
  simp only [Bool.and_eq_true]
  rw [all_countUp, all_countUp, all_countUp]
  constructor
  · rintro ⟨⟨h1, h2⟩, h3⟩
    refine ⟨fun x hx => h1 x (by omega) (by omega),
      fun y hy => h2 y (by omega) (by omega), ?_⟩
    intro x y hx hy
    have := h3 x (by omega) (by omega)
    rw [all_countUp] at this
    exact this y (by omega) (by omega)
  · rintro ⟨h1, h2, h3⟩
    refine ⟨⟨fun x _ hx => h1 x (by omega),
      fun y _ hy => h2 y (by omega)⟩, ?_⟩
    intro x _ hx
    rw [all_countUp]
    intro y _ hy
    exact h3 x y (by omega) (by omega)

theorem isValid_of_extends {N : ℕ} {B S : GenSudoku N}
    (hBr : InRange N B) (hSr : InRange N S) (hext : Extends S B)
    (hSv : isValid S = true) : isValid B = true := by
  rw [isValid_iff] at hSv ⊢
  obtain ⟨hrow, hcol, hquad⟩ := hSv
  refine ⟨?_, ?_, ?_⟩
  · intro x hx
    exact sectionValid_mono (cellsAt_rel hext (mem_rowIdx_lt hx))
      (cellsAt_le hBr _) (cellsAt_le hSr _) (hrow x hx)
  · intro y hy
    exact sectionValid_mono (cellsAt_rel hext (mem_colIdx_lt hy))
      (cellsAt_le hBr _) (cellsAt_le hSr _) (hcol y hy)
  · intro x y hx hy
    rcases isqrt_sq_or_zero N with hs0 | hsq
    · rw [hs0] at hx
      omega
    · have hrel : List.Forall₂ (fun a c => a = 0 ∨ a = c)
          (quadrant B x y) (quadrant S x y) := by
        apply List.rel_append
        · exact cellsAt_rel hext (mem_quadIdx_lt hsq hx hy)
        · rw [List.forall₂_same]
          intro v hv
          exact Or.inl (List.mem_replicate.mp hv).2
      exact sectionValid_mono hrel (quadrant_le hBr x y)
        (quadrant_le hSr x y) (hquad x y hx hy)

/-! ### Unfolding lemmas for `solveFuel` and `trySolved` -/

theorem solveFuel_invalid {N fuel : ℕ} {b : GenSudoku N}
    (h : isValid b = false) : solveFuel N (fuel + 1) b = b := by
  simp [solveFuel, h]

theorem solveFuel_next_none {N fuel : ℕ} {b : GenSudoku N}
    (hv : isValid b = true) (hn : next b = none) :
    solveFuel N (fuel + 1) b = b := by
  simp [solveFuel, hv, hn]

theorem solveFuel_next_some {N fuel : ℕ} {b : GenSudoku N} {x y : ℕ}
    (hv : isValid b = true) (hn : next b = some (x, y)) :
    solveFuel N (fuel + 1) b =
      (trySolved (fun i => solveFuel N fuel (put b x y i))
        (candList N)).getD b := by
  rcases ht : trySolved (fun i => solveFuel N fuel (put b x y i))
      (candList N) with _ | res <;>
    simp [solveFuel, hv, hn, ht]

theorem trySolved_eq_none {N : ℕ} {f : ℕ → GenSudoku N} :
    ∀ {cands : List ℕ}, trySolved f cands = none ↔
      ∀ i ∈ cands, (isComplete (f i) && isValid (f i)) = false := by
  intro cands
  induction cands with
  | nil => simp [trySolved]
  | cons i rest ih =>
    simp only [trySolved]
    by_cases hc : (isComplete (f i) && isValid (f i)) = true
    · rw [if_pos hc]
      constructor
      · intro h
        exact absurd h (by simp)
      · intro h
        rw [h i (List.mem_cons_self i rest)] at hc
        exact absurd hc (by simp)
    · have hc' : (isComplete (f i) && isValid (f i)) = false := by
        cases hq : (isComplete (f i) && isValid (f i))
        · rfl
        · exact absurd hq hc
      rw [if_neg hc, ih]
      constructor
      · intro h j hj
        rcases List.mem_cons.mp hj with he | hm
        · exact he ▸ hc'
        · exact h j hm
      · intro h j hj
        exact h j (List.mem_cons_of_mem i hj)

theorem trySolved_some_mem {N : ℕ} {f : ℕ → GenSudoku N} :
    ∀ {cands : List ℕ} {r : GenSudoku N}, trySolved f cands = some r →
      ∃ i ∈ cands, r = f i ∧
        (isComplete (f i) && isValid (f i)) = true := by
  intro cands
  induction cands with
  | nil =>
    intro r h
    simp [trySolved] at h
  | cons i rest ih =>
    intro r h
    simp only [trySolved] at h
    by_cases hc : (isComplete (f i) && isValid (f i)) = true
    · rw [if_pos hc] at h
      have hr : f i = r := by injection h
      exact ⟨i, List.mem_cons_self i rest, hr.symm, hc⟩
    · rw [if_neg hc] at h
      obtain ⟨j, hj, hr, hcj⟩ := ih h
      exact ⟨j, List.mem_cons_of_mem i hj, hr, hcj⟩

theorem trySolved_first {N : ℕ} {f : ℕ → GenSudoku N} {d : ℕ} :
    ∀ {a k : ℕ}, a ≤ d → d < a + k →
      (isComplete (f d) && isValid (f d)) = true →
      (∀ j, a ≤ j → j < d →
        (isComplete (f j) && isValid (f j)) = false) →
      trySolved f (countUp a k) = some (f d) := by
  intro a k
  induction k generalizing a with
  | zero =>
    intro h1 h2 _ _
    omega
  | succ k ih =>
    intro h1 h2 h3 h4
    simp only [countUp, trySolved]
    rcases Nat.eq_or_lt_of_le h1 with he | hl
    · subst he
      rw [if_pos h3]
    · rw [if_neg (by rw [h4 a (Nat.le_refl a) hl]; simp)]
      exact ih (by omega) (by omega) h3
        (fun j hj1 hj2 => h4 j (by omega) hj2)

theorem trySolved_congr {N : ℕ} {f g : ℕ → GenSudoku N} :
    ∀ {cands : List ℕ}, (∀ i ∈ cands, f i = g i) →
      trySolved f cands = trySolved g cands := by
  intro cands
  induction cands with
  | nil => intro _; rfl
  | cons i rest ih =>
    intro h
    simp only [trySolved]
    rw [h i (List.mem_cons_self i rest),
      ih (fun j hj => h j (List.mem_cons_of_mem i hj))]

theorem mem_candList {N i : ℕ} : i ∈ candList N ↔ 1 ≤ i ∧ i ≤ N := by
  rw [candList, mem_countUp]
  omega

/-! ### Preservation properties of the recursion -/

theorem put_extends {N : ℕ} {b : GenSudoku N} {x y v : ℕ} (hx : x < N)
    (hy : y < N) (h0 : get b x y = 0) : Extends (put b x y v) b := by
  intro p hp hne
  have hpne : x * N + y ≠ p := by
    intro he
    rw [get_eq_getD b hx hy] at h0
    rw [he] at h0
    exact hne h0
  exact getD_put_ne b v hpne

theorem put_inrange {N : ℕ} {b : GenSudoku N} {x y v : ℕ}
    (hb : InRange N b) (hv : v ≤ N) : InRange N (put b x y v) := by
  intro w hw
  rcases List.mem_or_eq_of_mem_set hw with hm | he
  · exact hb w hm
  · exact he ▸ hv

theorem isValid_false_of_ne_true {N : ℕ} {b : GenSudoku N}
    (h : ¬ isValid b = true) : isValid b = false := by
  cases hq : isValid b
  · rfl
  · exact absurd hq h

theorem solveFuel_extends {N : ℕ} :
    ∀ (fuel : ℕ) (b : GenSudoku N), Extends (solveFuel N fuel b) b := by
  intro fuel
  induction fuel with
  | zero => intro b; exact Extends.refl b
  | succ fuel ih =>
    intro b
    by_cases hv : isValid b = true
    · rcases hn : next b with _ | ⟨x, y⟩
      · rw [solveFuel_next_none hv hn]
        exact Extends.refl b
      · rw [solveFuel_next_some hv hn]
        rcases ht : trySolved (fun i => solveFuel N fuel (put b x y i))
            (candList N) with _ | res
        · exact Extends.refl b
        · simp only [Option.getD_some]
          obtain ⟨i, _, hr, _⟩ := trySolved_some_mem ht
          obtain ⟨hxN, hyN, h0, _⟩ := next_some_spec hn
          rw [hr]
          exact Extends.trans (ih (put b x y i)) (put_extends hxN hyN h0)
    · rw [solveFuel_invalid (isValid_false_of_ne_true hv)]
      exact Extends.refl b

theorem solveFuel_inrange {N : ℕ} :
    ∀ (fuel : ℕ) (b : GenSudoku N), InRange N b →
      InRange N (solveFuel N fuel b) := by
  intro fuel
  induction fuel with
  | zero => intro b hb; exact hb
  | succ fuel ih =>
    intro b hb
    by_cases hv : isValid b = true
    · rcases hn : next b with _ | ⟨x, y⟩
      · rw [solveFuel_next_none hv hn]
        exact hb
      · rw [solveFuel_next_some hv hn]
        rcases ht : trySolved (fun i => solveFuel N fuel (put b x y i))
            (candList N) with _ | res
        · exact hb
        · simp only [Option.getD_some]
          obtain ⟨i, hi, hr, _⟩ := trySolved_some_mem ht
          rw [hr]
          exact ih (put b x y i)
            (put_inrange hb (mem_candList.mp hi).2)
    · rw [solveFuel_invalid (isValid_false_of_ne_true hv)]
      exact hb

theorem countZeros_put_lt {N : ℕ} {b : GenSudoku N} {x y v : ℕ}
    (hx : x < N) (hy : y < N) (h0 : get b x y = 0) (hv : v ≠ 0) :
    countZeros (put b x y v) < countZeros b := by
  rw [countZeros, countZeros, put_boardState]
  apply count_zero_set_lt
  · rw [b.hlen]
    exact linear_lt hx hy
  · rw [get_eq_getD b hx hy] at h0
    exact h0
  · exact hv

/-! ### Fuel irrelevance: the recursion terminates within `countZeros` depth -/

theorem solveFuel_congr_fuel {N : ℕ} :
    ∀ (f₁ f₂ : ℕ) (b : GenSudoku N), countZeros b < f₁ →
      countZeros b < f₂ → solveFuel N f₁ b = solveFuel N f₂ b := by
  intro f₁
  induction f₁ with
  | zero =>
    intro f₂ b h1 _
    omega
  | succ f₁ ih =>
    intro f₂ b h1 h2
    obtain ⟨f₂', rfl⟩ : ∃ k, f₂ = k + 1 := by
      cases f₂
      · omega
      · exact ⟨_, rfl⟩
    by_cases hv : isValid b = true
    · rcases hn : next b with _ | ⟨x, y⟩
      · rw [solveFuel_next_none hv hn, solveFuel_next_none hv hn]
      · rw [solveFuel_next_some hv hn, solveFuel_next_some hv hn]
        have hcong : ∀ i ∈ candList N,
            solveFuel N f₁ (put b x y i) = solveFuel N f₂' (put b x y i) := by
          intro i hi
          obtain ⟨hxN, hyN, h0, _⟩ := next_some_spec hn
          have hlt : countZeros (put b x y i) < countZeros b :=
            countZeros_put_lt hxN hyN h0
              (by have := mem_candList.mp hi; omega)
          exact ih f₂' (put b x y i) (by omega) (by omega)
        rw [trySolved_congr hcong]
    · rw [solveFuel_invalid (isValid_false_of_ne_true hv),
        solveFuel_invalid (isValid_false_of_ne_true hv)]

/-! ### Lexicographic order on cell lists -/

theorem lexLe_refl : ∀ l : List ℕ, lexLe l l = true := by
  intro l
  induction l with
  | nil => rfl
  | cons a as ih => simp [lexLe, ih]

theorem lexLe_of_firstDiff :
    ∀ {l₁ l₂ : List ℕ} {p : ℕ}, p < l₁.length → p < l₂.length →
      (∀ q, q < p → l₁.getD q 0 = l₂.getD q 0) →
      l₁.getD p 0 < l₂.getD p 0 → lexLe l₁ l₂ = true := by
  intro l₁
  induction l₁ with
  | nil =>
    intro l₂ p h1
    simp at h1
  | cons a as ih =>
    intro l₂ p h1 h2 hpre hlt
    cases l₂ with
    | nil => simp at h2
    | cons b bs =>
      cases p with
      | zero =>
        rw [List.getD_cons_zero, List.getD_cons_zero] at hlt
        simp [lexLe, hlt]
      | succ p =>
        have hab : a = b := by
          have h0 := hpre 0 (Nat.succ_pos p)
          rw [List.getD_cons_zero, List.getD_cons_zero] at h0
          exact h0
        subst hab
        have htail : lexLe as bs = true := by
          apply ih (p := p) (by simpa using h1) (by simpa using h2)
          · intro q hq
            have hqq := hpre (q + 1) (by omega)
            rw [List.getD_cons_succ, List.getD_cons_succ] at hqq
            exact hqq
          · rw [List.getD_cons_succ, List.getD_cons_succ] at hlt
            exact hlt
        simp [lexLe, htail]

/-! ### Solutions of a puzzle -/

theorem solution_of_complete_eq {N : ℕ} {B S : GenSudoku N}
    (hc : isComplete B = true) (hS : IsSolutionOf S B) :
    S.boardState = B.boardState := by
  obtain ⟨_, _, _, hext⟩ := hS
  apply ext_getD
  · rw [S.hlen, B.hlen]
  · intro p hp
    rw [S.hlen] at hp
    exact hext p hp ((isComplete_iff_getD B).mp hc p hp)

theorem solution_getD_range {N : ℕ} {S : GenSudoku N}
    (hc : isComplete S = true) (hr : InRange N S) {p : ℕ}
    (hp : p < N * N) :
    1 ≤ S.boardState.getD p 0 ∧ S.boardState.getD p 0 ≤ N := by
  have h0 : S.boardState.getD p 0 ≠ 0 := (isComplete_iff_getD S).mp hc p hp
  have hle : S.boardState.getD p 0 ≤ N := by
    rcases getD_mem_or_eq (l := S.boardState) (p := p) with hm | hz
    · exact hr _ hm
    · exact absurd hz h0
  omega

/-! ### Main induction: the search finds the least solution when one exists -/

theorem solveFuel_main {N : ℕ} :
    ∀ (fuel : ℕ) (B : GenSudoku N), countZeros B < fuel → InRange N B →
      (∃ S, IsSolutionOf S B) →
      IsSolutionOf (solveFuel N fuel B) B ∧
      ∀ S, IsSolutionOf S B →
        lexLe (solveFuel N fuel B).boardState S.boardState = true := by
  intro fuel
  induction fuel with
  | zero =>
    intro B h
    omega
  | succ fuel ih =>
    intro B hfuel hBr hex
    obtain ⟨S₀, hS₀⟩ := hex
    have hBv : isValid B = true :=
      isValid_of_extends hBr hS₀.2.2.1 hS₀.2.2.2 hS₀.1
    rcases hn : next B with _ | ⟨x, y⟩
    · have hBc : isComplete B = true := next_none_iff.mp hn
      rw [solveFuel_next_none hBv hn]
      refine ⟨⟨hBv, hBc, hBr, Extends.refl B⟩, ?_⟩
      intro S hS
      rw [solution_of_complete_eq hBc hS]
      exact lexLe_refl _
    · obtain ⟨hxN, hyN, hg0, hfirst⟩ := next_some_spec hn
      have hpN : x * N + y < N * N := linear_lt hxN hyN
      have hgD0 : B.boardState.getD (x * N + y) 0 = 0 := by
        rw [← get_eq_getD B hxN hyN]
        exact hg0
      classical
      have hPex : ∃ e, ∃ S, IsSolutionOf S B ∧
          S.boardState.getD (x * N + y) 0 = e := ⟨_, S₀, hS₀, rfl⟩
      obtain ⟨d, hdP, hdmin⟩ :
          ∃ d, (∃ S, IsSolutionOf S B ∧
              S.boardState.getD (x * N + y) 0 = d) ∧
            ∀ e, (∃ S, IsSolutionOf S B ∧
              S.boardState.getD (x * N + y) 0 = e) → d ≤ e :=
        ⟨Nat.find hPex, Nat.find_spec hPex,
          fun e he => Nat.find_min' hPex he⟩
      obtain ⟨Sd, hSd, hSdp⟩ := hdP
      have hd1 : 1 ≤ d ∧ d ≤ N := by
        have hr := solution_getD_range hSd.2.1 hSd.2.2.1 hpN
        rw [hSdp] at hr
        exact hr
      have hchild_ext : Extends Sd (put B x y d) := by
        intro q hq hq0
        by_cases hqp : x * N + y = q
        · rw [← hqp] at hq0 ⊢
          rw [getD_put_eq B d hpN]
          exact hSdp
        · rw [getD_put_ne B d hqp] at hq0 ⊢
          exact hSd.2.2.2 q hq hq0
      have hchild_count : countZeros (put B x y d) < countZeros B :=
        countZeros_put_lt hxN hyN hg0 (by omega)
      have hchild_inr : InRange N (put B x y d) := put_inrange hBr hd1.2
      obtain ⟨hRsol, hRlex⟩ := ih (put B x y d) (by omega) hchild_inr
        ⟨Sd, hSd.1, hSd.2.1, hSd.2.2.1, hchild_ext⟩
      have hcheck_d : (isComplete (solveFuel N fuel (put B x y d)) &&
          isValid (solveFuel N fuel (put B x y d))) = true := by
        rw [hRsol.2.1, hRsol.1]
        rfl
      have hcheck_lt : ∀ j, 1 ≤ j → j < d →
          (isComplete (solveFuel N fuel (put B x y j)) &&
            isValid (solveFuel N fuel (put B x y j))) = false := by
        intro j hj1 hjd
        by_contra hc
        have hct : (isComplete (solveFuel N fuel (put B x y j)) &&
            isValid (solveFuel N fuel (put B x y j))) = true := by
          cases hq : (isComplete (solveFuel N fuel (put B x y j)) &&
              isValid (solveFuel N fuel (put B x y j)))
          · exact absurd hq hc
          · rfl
        simp only [Bool.and_eq_true] at hct
        obtain ⟨hcomp, hval⟩ := hct
        have hRj_ext : Extends (solveFuel N fuel (put B x y j)) B :=
          Extends.trans (solveFuel_extends fuel (put B x y j))
            (put_extends hxN hyN hg0)
        have hRj_inr : InRange N (solveFuel N fuel (put B x y j)) :=
          solveFuel_inrange fuel _ (put_inrange hBr (by omega))
        have hput : (put B x y j).boardState.getD (x * N + y) 0 = j :=
          getD_put_eq B j hpN
        have hRj_at : (solveFuel N fuel
            (put B x y j)).boardState.getD (x * N + y) 0 = j := by
          have hstep := solveFuel_extends fuel (put B x y j) (x * N + y)
            hpN (by rw [hput]; omega)
          rw [hstep, hput]
        have hdj : d ≤ j :=
          hdmin j ⟨solveFuel N fuel (put B x y j),
            ⟨hval, hcomp, hRj_inr, hRj_ext⟩, hRj_at⟩
        omega
      have htry : trySolved (fun i => solveFuel N fuel (put B x y i))
          (candList N) = some (solveFuel N fuel (put B x y d)) := by
        rw [candList]
        exact trySolved_first hd1.1 (by omega) hcheck_d
          (fun j hj1 hj2 => hcheck_lt j hj1 hj2)
      rw [solveFuel_next_some hBv hn, htry]
      simp only [Option.getD_some]
      constructor
      · exact ⟨hRsol.1, hRsol.2.1, hRsol.2.2.1,
          Extends.trans hRsol.2.2.2 (put_extends hxN hyN hg0)⟩
      · intro S hS
        have hdle : d ≤ S.boardState.getD (x * N + y) 0 :=
          hdmin _ ⟨S, hS, rfl⟩
        rcases Nat.eq_or_lt_of_le hdle with heq | hlt
        · have hSext_child : Extends S (put B x y d) := by
            intro q hq hq0
            by_cases hqp : x * N + y = q
            · rw [← hqp]
              rw [getD_put_eq B d hpN]
              exact heq.symm
            · rw [getD_put_ne B d hqp] at hq0 ⊢
              exact hS.2.2.2 q hq hq0
          exact hRlex S ⟨hS.1, hS.2.1, hS.2.2.1, hSext_child⟩
        · apply lexLe_of_firstDiff (p := x * N + y)
          · rw [(solveFuel N fuel (put B x y d)).hlen]
            exact hpN
          · rw [S.hlen]
            exact hpN
          · intro q hq
            have hqN : q < N * N := Nat.lt_trans hq hpN
            obtain ⟨hq1, hq2, hq3⟩ := linear_decomp hqN
            have hBq : B.boardState.getD q 0 ≠ 0 := by
              have hf := hfirst (q / N) (q % N) hq1 hq2
                (by rw [hq3]; exact hq)
              rw [get_eq_getD B hq1 hq2, hq3] at hf
              exact hf
            have hputq : (put B x y d).boardState.getD q 0 =
                B.boardState.getD q 0 := getD_put_ne B d (by omega)
            have hRq : (solveFuel N fuel
                (put B x y d)).boardState.getD q 0 =
                B.boardState.getD q 0 := by
              have hstep := solveFuel_extends fuel (put B x y d) q hqN
                (by rw [hputq]; exact hBq)
              rw [hstep, hputq]
            have hSq : S.boardState.getD q 0 = B.boardState.getD q 0 :=
              hS.2.2.2 q hqN hBq
            rw [hRq, hSq]
          · have hputp : (put B x y d).boardState.getD (x * N + y) 0 = d :=
              getD_put_eq B d hpN
            have hRp : (solveFuel N fuel
                (put B x y d)).boardState.getD (x * N + y) 0 = d := by
              have hstep := solveFuel_extends fuel (put B x y d)
                (x * N + y) hpN (by rw [hputp]; omega)
              rw [hstep, hputp]
            rw [hRp]
            exact hlt

/-! ### Claim theorems -/

/-- C1: for every dimension `N` with integral square root and every board
`B` whose cells lie in `[0, N]`, if at least one valid and complete board
(with cells in range) agrees with `B` on all of `B`'s non-zero cells, then
`solve B` is valid and complete, agrees with `B`'s clues, and is the
lexicographically-least such solution — i.e. the first solution reached by
filling the first row-major empty cell with candidates tried in ascending
order `1..N`.  `solve` being a pure function, its output is a
deterministic function of the input board. -/
theorem solve_c1 {N : ℕ} (hsq : isqrt N * isqrt N = N) (B : GenSudoku N)
    (hBr : InRange N B) (hex : ∃ S, IsSolutionOf S B) :
    IsSolutionOf (solve B) B ∧
    ∀ S, IsSolutionOf S B →
      lexLe (solve B).boardState S.boardState = true :=
  solveFuel_main (N * N + 1) B
    (by have := countZeros_le B; omega) hBr hex

theorem solve_c1_witness :
    isqrt 4 * isqrt 4 = 4 ∧ InRange 4 sampleBoard ∧
    IsSolutionOf sampleSolved sampleBoard ∧
    IsSolutionOf (solve sampleBoard) sampleBoard ∧
    lexLe (solve sampleBoard).boardState sampleSolved.boardState = true := by
  have hsq : isqrt 4 * isqrt 4 = 4 := by decide
  have hr : InRange 4 sampleBoard := by decide
  have hsol : IsSolutionOf sampleSolved sampleBoard := by decide
  have h := solve_c1 hsq sampleBoard hr ⟨sampleSolved, hsol⟩
  exact ⟨hsq, hr, hsol, h.1, h.2 sampleSolved hsol⟩

/-- C2 counterexample: the claim asserts the receiver board is left
unchanged by `put`, but the C++ `put` assigns into the receiver's own
`boardState` before returning `*this`: on the board holding a single `0`,
after `put(0, 0, 1)` the receiver holds `1`, not its original value. -/
theorem putCall_c2_counterexample :
    ¬ (putCall sampleOne 0 0 1).2 = sampleOne := by decide

/-- C2 (amended): for every in-range `(row, col)`, `put` returns a board
equal to the receiver except that `(row, col)` now holds the value; the
receiver, however, is not left unchanged — it is mutated in place to that
same updated state (so the return value and the post-call receiver state
coincide, and callers wanting the original must copy first, as `solve`
does via `GenSudoku(*this)`). -/
theorem putCall_c2 {N : ℕ} (b : GenSudoku N) (x y v : ℕ)
    (hx : x < N) (hy : y < N) :
    (∀ a c, a < N → c < N →
      get (putCall b x y v).1 a c =
        if a = x ∧ c = y then v else get b a c) ∧
    (putCall b x y v).2 = (putCall b x y v).1 := by
  refine ⟨?_, rfl⟩
  intro a c ha hc
  by_cases he : a = x ∧ c = y
  · rw [if_pos he]
    obtain ⟨he1, he2⟩ := he
    subst he1
    subst he2
    show get (put b a c v) a c = v
    rw [get_eq_getD _ ha hc]
    exact getD_put_eq b v (linear_lt ha hc)
  · rw [if_neg he]
    show get (put b x y v) a c = get b a c
    rw [get_eq_getD _ ha hc, get_eq_getD b ha hc]
    apply getD_put_ne
    intro hcontra
    obtain ⟨h1, h2⟩ := linear_inj hy hc hcontra
    exact he ⟨h1.symm, h2.symm⟩

theorem putCall_c2_witness :
    (0 < 1 ∧ 0 < 1) ∧
    get (putCall sampleOne 0 0 1).1 0 0 = 1 ∧
    (putCall sampleOne 0 0 1).2 = (putCall sampleOne 0 0 1).1 := by
  have h := putCall_c2 sampleOne 0 0 1 (by decide) (by decide)
  refine ⟨⟨by decide, by decide⟩, ?_, h.2⟩
  have h1 := h.1 0 0 (by decide) (by decide)
  rw [if_pos ⟨rfl, rfl⟩] at h1
  exact h1

/-- C3: whenever `isValid B` is false, `solve B` returns `B` unchanged,
cell for cell, without filling anything: the very first test of `solve`
returns `*this`; failure is visible only through the returned board being
still invalid or incomplete. -/
theorem solve_c3 {N : ℕ} (b : GenSudoku N) (h : isValid b = false) :
    solve b = b :=
  solveFuel_invalid h

theorem solve_c3_witness :
    isValid sampleInvalid = false ∧ solve sampleInvalid = sampleInvalid :=
  ⟨by decide, solve_c3 sampleInvalid (by decide)⟩

/-- C4: for a section of `N` cells whose entries lie in `[0, N]`,
`sectionValid` is false exactly when some non-zero value occurs at least
twice; zero entries are never compared against each other and never cause
rejection (only non-zero values appear in the duplicate condition). -/
theorem sectionValid_c4 {N : ℕ} (bs : List ℕ) (hlen : bs.length = N)
    (hr : ∀ v ∈ bs, v ≤ N) :
    (sectionValid N bs = false ↔ ∃ v, v ≠ 0 ∧ 2 ≤ bs.count v) := by
  have h := sectionValid_eq_true_iff (N := N) hr
  constructor
  · intro hf
    by_contra hne
    push_neg at hne
    have ht : sectionValid N bs = true :=
      h.mpr (fun v hv => by have := hne v hv; omega)
    rw [ht] at hf
    exact absurd hf (by simp)
  · rintro ⟨v, hv0, hv2⟩
    cases hq : sectionValid N bs
    · rfl
    · have := h.mp hq v hv0
      omega

theorem sectionValid_c4_witness :
    (([1, 2, 1, 0] : List ℕ).length = 4 ∧
      (∀ v ∈ ([1, 2, 1, 0] : List ℕ), v ≤ 4)) ∧
    (sectionValid 4 [1, 2, 1, 0] = false ↔
      ∃ v, v ≠ 0 ∧ 2 ≤ ([1, 2, 1, 0] : List ℕ).count v) :=
  ⟨⟨by decide, by decide⟩,
    sectionValid_c4 [1, 2, 1, 0] (by decide) (by decide)⟩

/-- C5: `isqrt n` returns `t` whenever an integer `t` in `[0, n)` with
`t*t = n` exists, and `0` otherwise; being a total function it signals no
error — `0` is the only failure indicator. -/
theorem isqrt_c5 (n : ℕ) :
    (∀ t, t < n → t * t = n → isqrt n = t) ∧
    ((∀ t, t < n → t * t ≠ n) → isqrt n = 0) :=
  ⟨fun _ h1 h2 => isqrt_eq_of_found h1 h2, fun h => isqrt_eq_zero h⟩

theorem isqrt_c5_witness :
    (3 < 9 ∧ 3 * 3 = 9 ∧ isqrt 9 = 3) ∧
    ((∀ t, t < 2 → t * t ≠ 2) ∧ isqrt 2 = 0) :=
  ⟨⟨by decide, by decide, (isqrt_c5 9).1 3 (by decide) (by decide)⟩,
    ⟨by decide, (isqrt_c5 2).2 (by decide)⟩⟩

/-- C6: `get` is total — when the linear index `row*N + col` is at least
`N*N` it returns the empty-cell sentinel `0` instead of failing, and
otherwise it returns the value stored at that linear index. -/
theorem get_c6 {N : ℕ} (b : GenSudoku N) (x y : ℕ) :
    (N * N ≤ x * N + y → get b x y = 0) ∧
    (x * N + y < N * N →
      get b x y = b.boardState.getD (x * N + y) 0) := by
  constructor
  · intro h
    exact get_of_ge b h
  · intro h
    show (if N * N ≤ x * N + y then 0
      else b.boardState.getD (x * N + y) 0) =
        b.boardState.getD (x * N + y) 0
    rw [if_neg (by omega)]

theorem get_c6_witness :
    (2 * 2 ≤ 2 * 2 + 1 ∧ get sampleSmall 2 1 = 0) ∧
    (0 * 2 + 1 < 2 * 2 ∧
      get sampleSmall 0 1 = sampleSmall.boardState.getD (0 * 2 + 1) 0) :=
  ⟨⟨by decide, (get_c6 sampleSmall 2 1).1 (by decide)⟩,
    ⟨by decide, (get_c6 sampleSmall 0 1).2 (by decide)⟩⟩

/-- C7: the board returned by `solve` agrees with the input board on every
cell that is non-zero in the input: the search only overwrites cells that
were empty, so all original clues survive in the result. -/
theorem solve_c7 {N : ℕ} (b : GenSudoku N) :
    ∀ p, p < N * N → b.boardState.getD p 0 ≠ 0 →
      (solve b).boardState.getD p 0 = b.boardState.getD p 0 :=
  fun p hp h0 => solveFuel_extends (N * N + 1) b p hp h0

theorem solve_c7_witness :
    (0 < 4 * 4 ∧ sampleBoard.boardState.getD 0 0 ≠ 0) ∧
    (solve sampleBoard).boardState.getD 0 0 =
      sampleBoard.boardState.getD 0 0 :=
  ⟨⟨by decide, by decide⟩,
    solve_c7 sampleBoard 0 (by decide) (by decide)⟩

/-- C8: on a board that is already solved (valid and complete), `solve` is
the identity — it returns an equal board — and consequently
`solve (solve B) = solve B`. -/
theorem solve_c8 {N : ℕ} (b : GenSudoku N) (h : isSolved b = true) :
    solve b = b ∧ solve (solve b) = solve b := by
  have h' : isValid b = true ∧ isComplete b = true := by
    have hh := h
    rw [isSolved] at hh
    simp only [Bool.and_eq_true] at hh
    exact hh
  have hn : next b = none := next_none_iff.mpr h'.2
  have h1 : solve b = b := solveFuel_next_none h'.1 hn
  exact ⟨h1, by rw [h1]; exact h1⟩

theorem solve_c8_witness :
    isSolved sampleSolved = true ∧
    solve sampleSolved = sampleSolved ∧
    solve (solve sampleSolved) = solve sampleSolved := by
  have hs : isSolved sampleSolved = true := by decide
  have h := solve_c8 sampleSolved hs
  exact ⟨hs, h.1, h.2⟩

/-- C9: `solve` terminates on every board: the number of zero cells, at
most `N²`, strictly decreases down each call chain, so any recursion-depth
bound exceeding `countZeros b` — in particular the `N*N + 1` used by
`solve` — yields the same result; and each level tries exactly the `N`
candidate digits `1..N`. -/
theorem solve_c9 {N : ℕ} (b : GenSudoku N) :
    (∀ fuel, countZeros b < fuel → solveFuel N fuel b = solve b) ∧
    countZeros b ≤ N * N ∧ (candList N).length = N := by
  refine ⟨?_, countZeros_le b, ?_⟩
  · intro fuel hf
    exact solveFuel_congr_fuel fuel (N * N + 1) b hf
      (by have := countZeros_le b; omega)
  · rw [candList, length_countUp]

theorem solve_c9_witness :
    countZeros sampleBoard < 17 ∧
    solveFuel 4 17 sampleBoard = solve sampleBoard :=
  ⟨by decide, (solve_c9 sampleBoard).1 17 (by decide)⟩

/-- C10: the write path of `put` has no range check: writes at a linear
index `row*N + col` below `N*N` stay inside the `N²`-cell array (the
checked write succeeds and preserves the length), while any index at or
above `N*N` reaches the error branch of the total embedding of the raw
array write — there is no clamping or sentinel on the write path, unlike
`get`. -/
theorem put_c10 {N : ℕ} (b : GenSudoku N) (x y v : ℕ) :
    (x * N + y < N * N →
      ∃ l, writeCell b.boardState (x * N + y) v = some l ∧
        l.length = N * N) ∧
    (N * N ≤ x * N + y →
      writeCell b.boardState (x * N + y) v = none) := by
  constructor
  · intro h
    refine ⟨b.boardState.set (x * N + y) v, ?_, ?_⟩
    · unfold writeCell
      rw [if_pos (by rw [b.hlen]; exact h)]
    · rw [List.length_set]
      exact b.hlen
  · intro h
    unfold writeCell
    rw [if_neg (by rw [b.hlen]; omega)]

theorem put_c10_witness :
    (0 * 2 + 1 < 2 * 2 ∧
      (∃ l, writeCell sampleSmall.boardState (0 * 2 + 1) 9 = some l ∧
        l.length = 2 * 2)) ∧
    (2 * 2 ≤ 2 * 2 + 1 ∧
      writeCell sampleSmall.boardState (2 * 2 + 1) 9 = none) :=
  ⟨⟨by decide, (put_c10 sampleSmall 0 1 9).1 (by decide)⟩,
    ⟨by decide, (put_c10 sampleSmall 2 1 9).2 (by decide)⟩⟩
